import Mathlib

/-!
Verification of the Peers client core: the derived-link engine
(`generateStreamLinks` / `generateInterestLinks` from
`src/components/Canvas/Canvas.tsx`) and the optimistic-update store
(`src/store/useStore.ts`).

Shallow embedding conventions:
* JS strings are Lean `String`; the default JS array sort on strings is
  modelled by lexicographic `≤` on `String` (identical on ASCII data).
* `undefined`/optional fields are `Option`; the JS truthiness test
  `if (person.stream)` is `stream = some s` with `s ≠ ""`.
* JS objects used as string-keyed maps preserve key insertion order, so the
  stream grouping is modelled by filtering the people list per key, with the
  keys listed in first-occurrence order.
* The mutable `Set` used for interest de-duplication and for pending
  operations is a `List String` with membership semantics (`add` appends if
  absent, `delete` filters).
-/

/-- Relationship type tag, from `src/types/index.ts` (`LinkType`). -/
inductive LinkType where
  | collaborator | mentor | student | colleague | friend | advisor
  | coauthor | stream | interest | other
  deriving DecidableEq, Repr

/-- Entity record, from `src/types/index.ts` (`Person`).  The 2-D `position`
is modelled with integer coordinates (its value never influences the logic
verified here). -/
structure Person where
  id : String
  name : String
  affiliations : Option (List String) := none
  photoUrl : Option String := none
  peeps : Option String := none
  stream : Option String := none
  interests : Option (List String) := none
  posX : Int := 0
  posY : Int := 0
  createdAt : String := ""
  updatedAt : String := ""
  deriving DecidableEq, Repr

/-- Relationship record, from `src/types/index.ts` (`Link`). -/
structure Link where
  id : String
  sourceId : String
  targetId : String
  description : String
  type : LinkType
  url : Option String := none
  createdAt : String := ""
  updatedAt : String := ""
  deriving DecidableEq, Repr

/-- JS `s.toLowerCase()`, computed structurally on the character list. -/
def jsToLower (s : String) : String :=
  String.mk (s.data.map Char.toLower)

/-- Drop leading whitespace from a character list. -/
def dropLeadingWs : List Char → List Char
  | [] => []
  | c :: cs => if c.isWhitespace then dropLeadingWs cs else c :: cs

/-- JS `s.trim()`: whitespace stripped from both ends, computed structurally
on the character list. -/
def jsTrim (s : String) : String :=
  String.mk ((dropLeadingWs (dropLeadingWs s.data).reverse).reverse)

/-- JS `s.charAt(0).toUpperCase() + s.slice(1)` (Canvas.tsx line 46). -/
def capitalizeJs (s : String) : String :=
  match s.data with
  | [] => ""
  | c :: cs => String.mk (Char.toUpper c :: cs)

/-- The stream grouping key of a person: `person.stream.toLowerCase().trim()`,
guarded by the JS truthiness test `if (person.stream)` (so a missing stream
and the empty-string stream produce no key). Canvas.tsx lines 26-33. -/
def streamKey (p : Person) : Option String :=
  match p.stream with
  | none => none
  | some s => if s = "" then none else some (jsTrim (jsToLower s))

/-- Keys of a JS object in insertion order: first occurrence of each key is
kept, later duplicates dropped. -/
def firstDedup : List String → List String
  | [] => []
  | k :: ks => k :: (firstDedup ks).filter (fun x => x ≠ k)

/-- The group of people stored under stream key `k` (in people-list order,
exactly as built by the grouping loop of Canvas.tsx lines 26-34). -/
def streamGroup (people : List Person) (k : String) : List Person :=
  people.filter (fun p => streamKey p = some k)

/-- The stream link pushed for group members `p` (outer index) and `q` (inner
index), Canvas.tsx lines 42-50. -/
def mkStreamLink (p q : Person) (streamName : String) : Link :=
  { id := "stream-" ++ p.id ++ "-" ++ q.id
    sourceId := p.id
    targetId := q.id
    description := capitalizeJs streamName
    type := LinkType.stream
    createdAt := ""
    updatedAt := "" }

/-- The `i < j` pair enumeration shared by the stream-group double loop
(Canvas.tsx lines 40-52) and the interest double loop (lines 64-67): every
earlier element is paired with every later element, in iteration order. -/
def offDiagPairs : List Person → List (Person × Person)
  | [] => []
  | p :: ps => ps.map (fun q => (p, q)) ++ offDiagPairs ps

/-- The double loop `for i; for j = i+1` over a group (Canvas.tsx
lines 40-52): one stream link per `i < j` pair of group members. -/
def streamPairLinks (streamName : String) (ps : List Person) : List Link :=
  (offDiagPairs ps).map (fun pq => mkStreamLink pq.1 pq.2 streamName)

/-- `generateStreamLinks` (Canvas.tsx lines 22-56): group people by stream
key, then link every pair inside every group. -/
def generateStreamLinks (people : List Person) : List Link :=
  (firstDedup (people.filterMap streamKey)).flatMap
    (fun k => streamPairLinks k (streamGroup people k))

/-- The interests list of a person; a missing (`undefined`) interests field
behaves as the empty list. -/
def interestsOf (p : Person) : List String :=
  p.interests.getD []

/-- Lexicographic strict order on character lists (the comparison JS string
sort uses; on ASCII data it coincides with code-unit order). -/
def charListLt : List Char → List Char → Bool
  | [], [] => false
  | [], _ :: _ => true
  | _ :: _, [] => false
  | a :: as, b :: bs => if a < b then true else if b < a then false else charListLt as bs

/-- Boolean `a ≤ b` on strings, via `charListLt`. -/
def strLeB (a b : String) : Bool :=
  !(charListLt b.data a.data)

/-- Insert a string into an ascending list. -/
def insertSorted (x : String) : List String → List String
  | [] => [x]
  | y :: ys => if strLeB x y then x :: y :: ys else y :: insertSorted x ys

/-- JS default array sort on strings: ascending lexicographic order
(insertion sort; JS `Array.prototype.sort` is observationally the same on
string arrays, whose equal elements are indistinguishable). -/
def jsSortStrings : List String → List String
  | [] => []
  | x :: xs => insertSorted x (jsSortStrings xs)

/-- The de-duplication key `[person1.id, person2.id, interest].sort().join('-')`
of Canvas.tsx line 79. -/
def pairKey (a b x : String) : String :=
  String.intercalate "-" (jsSortStrings [a, b, x])

/-- `person1.interests.filter((i) => person2.interests.includes(i))`,
Canvas.tsx lines 73-75.  JS `includes` is exact string equality. -/
def sharedInterests (p q : Person) : List String :=
  (interestsOf p).filter (fun x => (interestsOf q).contains x)

/-- The interest link pushed at Canvas.tsx lines 82-90. -/
def mkInterestLink (p q : Person) (interest : String) : Link :=
  { id := "interest-" ++ p.id ++ "-" ++ q.id ++ "-" ++ interest
    sourceId := p.id
    targetId := q.id
    description := interest
    type := LinkType.interest
    createdAt := ""
    updatedAt := "" }

/-- The sequence of candidate interest links examined by the double loop of
Canvas.tsx lines 64-94, in iteration order and before de-duplication: for
every `i < j` pair (skipped when either side has no interests), one candidate
per occurrence of a shared interest. -/
def rawInterestLinks (people : List Person) : List Link :=
  (offDiagPairs people).flatMap (fun pq =>
    if interestsOf pq.1 = [] ∨ interestsOf pq.2 = [] then []
    else (sharedInterests pq.1 pq.2).map (mkInterestLink pq.1 pq.2))

/-- The de-duplication key of a candidate link.  The source computes the key
from `person1.id`, `person2.id` and `interest`, which are exactly the
candidate's `sourceId`, `targetId` and `description`. -/
def linkKey (l : Link) : String :=
  pairKey l.sourceId l.targetId l.description

/-- The `seenPairs` filter of Canvas.tsx lines 79-91: a candidate whose key
is already in the seen set is dropped, otherwise its key is recorded and the
link is pushed. -/
def dedupLoop : List Link → List String → List Link → List Link
  | [], _, acc => acc
  | l :: ls, seen, acc =>
    if seen.contains (linkKey l)
    then dedupLoop ls seen acc
    else dedupLoop ls (seen ++ [linkKey l]) (acc ++ [l])

/-- `generateInterestLinks` (Canvas.tsx lines 59-97), as the fusion of the
candidate enumeration with the stateful seen-set filter. -/
def generateInterestLinks (people : List Person) : List Link :=
  dedupLoop (rawInterestLinks people) [] []

/-- Recursion-friendly reformulation of `dedupLoop` without the accumulator
(`dedupLoop ls seen acc = acc ++ dedupRec ls seen`, proved below). -/
def dedupRec : List Link → List String → List Link
  | [], _ => []
  | l :: ls, seen =>
    if seen.contains (linkKey l) then dedupRec ls seen
    else l :: dedupRec ls (seen ++ [linkKey l])

/-- No two distinct (pair, shared interest) combinations of the entity list
collide on the de-duplication key `[id1, id2, interest].sort().join('-')`.
This is the hypothesis under which the interest de-duplication behaves as
one link per combination (it can fail: see the collision fixture). -/
@[reducible] def pairKeyInjective (people : List Person) : Prop :=
  ∀ pq ∈ offDiagPairs people, ∀ pq' ∈ offDiagPairs people,
    ∀ x ∈ sharedInterests pq.1 pq.2, ∀ x' ∈ sharedInterests pq'.1 pq'.2,
      pairKey pq.1.id pq.2.id x = pairKey pq'.1.id pq'.2.id x' →
      pq = pq' ∧ x = x'

/-!
The optimistic-update store (`src/store/useStore.ts`).  The zustand store
state and the module-level `pendingOperations` set are modelled as one
record; the asynchronous remote call of each action is modelled by a
`remoteOk : Bool` parameter (true = the `await` succeeds, false = it throws),
with the failure continuation applied to the post-optimistic state, i.e. the
sequential no-interleaving execution.  `uuidv4()` and
`new Date().toISOString()` are modelled as explicit parameters.
-/

/-- The store fields the verified logic touches (`people`, `links`,
selection, `error`) together with the module-level `pendingOperations`
set (useStore.ts line 33). -/
structure StoreState where
  people : List Person
  links : List Link
  selectedPersonId : Option String := none
  selectedLinkId : Option String := none
  error : Option String := none
  pending : List String := []
  deriving DecidableEq, Repr

/-- JS `Set.add`: append the key if it is not already present. -/
def pendingAdd (pending : List String) (key : String) : List String :=
  if pending.contains key then pending else pending ++ [key]

/-- JS `Set.delete`: remove the key. -/
def pendingDelete (pending : List String) (key : String) : List String :=
  pending.filter (fun k => k ≠ key)

/-- Pending-operation marker `person:create:id` (useStore.ts line 93). -/
def personCreateKey (id : String) : String := "person:create:" ++ id

/-- Pending-operation marker `person:update:id`. -/
def personUpdateKey (id : String) : String := "person:update:" ++ id

/-- Pending-operation marker `person:delete:id`. -/
def personDeleteKey (id : String) : String := "person:delete:" ++ id

/-- Pending-operation marker `link:create:id`. -/
def linkCreateKey (id : String) : String := "link:create:" ++ id

/-- Pending-operation marker `link:update:id`. -/
def linkUpdateKey (id : String) : String := "link:update:" ++ id

/-- Pending-operation marker `link:delete:id`. -/
def linkDeleteKey (id : String) : String := "link:delete:" ++ id

/-- `addPerson` (useStore.ts lines 206-232): optimistic append, pending
marker, remote create; on failure the person is filtered back out, the
marker deleted and an error surfaced. -/
def addPerson (st : StoreState) (draft : Person) (newId now : String)
    (remoteOk : Bool) : StoreState :=
  let person := { draft with id := newId, createdAt := now, updatedAt := now }
  let st1 := { st with people := st.people ++ [person],
                       pending := pendingAdd st.pending (personCreateKey person.id) }
  if remoteOk then st1
  else { st1 with pending := pendingDelete st1.pending (personCreateKey person.id),
                  people := st1.people.filter (fun p => p.id ≠ person.id),
                  error := some "Failed to save person" }

/-- `updatePerson` (useStore.ts lines 234-263).  The partial update (which
cannot touch `id` or `createdAt`) is modelled as a function `updates` whose
result is re-stamped with the existing identity fields and the fresh
`updatedAt`. -/
def updatePerson (st : StoreState) (id : String) (updates : Person → Person)
    (now : String) (remoteOk : Bool) : StoreState :=
  match st.people.find? (fun p => p.id == id) with
  | none => st
  | some existingPerson =>
    let updatedPerson :=
      { updates existingPerson with
          id := existingPerson.id, createdAt := existingPerson.createdAt, updatedAt := now }
    let st1 := { st with
      people := st.people.map (fun p => if p.id == id then updatedPerson else p),
      pending := pendingAdd st.pending (personUpdateKey id) }
    if remoteOk then st1
    else { st1 with
      pending := pendingDelete st1.pending (personUpdateKey id),
      people := st1.people.map (fun p => if p.id == id then existingPerson else p),
      error := some "Failed to update person" }

/-- The single optimistic `set` call of `deletePerson` (useStore.ts
lines 275-279): drop the person, drop every link touching it, clear the
person selection if it pointed at it. -/
def deletePersonOptimistic (st : StoreState) (id : String) : StoreState :=
  { st with
    people := st.people.filter (fun p => p.id ≠ id),
    links := st.links.filter (fun l => l.sourceId ≠ id ∧ l.targetId ≠ id),
    selectedPersonId := if st.selectedPersonId = some id then none else st.selectedPersonId }

/-- `deletePerson` (useStore.ts lines 265-297): capture the person and its
incident links, apply the optimistic removal, mark all removed ids pending;
on failure delete the markers, re-append the captured records and surface an
error. -/
def deletePerson (st : StoreState) (id : String) (remoteOk : Bool) : StoreState :=
  match st.people.find? (fun p => p.id == id) with
  | none => st
  | some existingPerson =>
    let existingLinks := st.links.filter (fun l => l.sourceId == id || l.targetId == id)
    let st1 := deletePersonOptimistic st id
    let st2 := { st1 with
      pending := (existingLinks.map (fun l => linkDeleteKey l.id)).foldl pendingAdd
        (pendingAdd st1.pending (personDeleteKey id)) }
    if remoteOk then st2
    else { st2 with
      pending := (existingLinks.map (fun l => linkDeleteKey l.id)).foldl pendingDelete
        (pendingDelete st2.pending (personDeleteKey id)),
      people := st2.people ++ [existingPerson],
      links := st2.links ++ existingLinks,
      error := some "Failed to delete person" }

/-- `addLink` (useStore.ts lines 300-324). -/
def addLink (st : StoreState) (draft : Link) (newId now : String)
    (remoteOk : Bool) : StoreState :=
  let link := { draft with id := newId, createdAt := now, updatedAt := now }
  let st1 := { st with links := st.links ++ [link],
                       pending := pendingAdd st.pending (linkCreateKey link.id) }
  if remoteOk then st1
  else { st1 with pending := pendingDelete st1.pending (linkCreateKey link.id),
                  links := st1.links.filter (fun l => l.id ≠ link.id),
                  error := some "Failed to save link" }

/-- `updateLink` (useStore.ts lines 326-354), modelled like `updatePerson`. -/
def updateLink (st : StoreState) (id : String) (updates : Link → Link)
    (now : String) (remoteOk : Bool) : StoreState :=
  match st.links.find? (fun l => l.id == id) with
  | none => st
  | some existingLink =>
    let updatedLink :=
      { updates existingLink with
          id := existingLink.id, createdAt := existingLink.createdAt, updatedAt := now }
    let st1 := { st with
      links := st.links.map (fun l => if l.id == id then updatedLink else l),
      pending := pendingAdd st.pending (linkUpdateKey id) }
    if remoteOk then st1
    else { st1 with
      pending := pendingDelete st1.pending (linkUpdateKey id),
      links := st1.links.map (fun l => if l.id == id then existingLink else l),
      error := some "Failed to update link" }

/-- `deleteLink` (useStore.ts lines 356-379). -/
def deleteLink (st : StoreState) (id : String) (remoteOk : Bool) : StoreState :=
  match st.links.find? (fun l => l.id == id) with
  | none => st
  | some existingLink =>
    let st1 := { st with
      links := st.links.filter (fun l => l.id ≠ id),
      selectedLinkId := if st.selectedLinkId = some id then none else st.selectedLinkId,
      pending := pendingAdd st.pending (linkDeleteKey id) }
    if remoteOk then st1
    else { st1 with
      pending := pendingDelete st1.pending (linkDeleteKey id),
      links := st1.links ++ [existingLink],
      error := some "Failed to delete link" }

/-- `_addPersonFromSocket` (useStore.ts lines 158-166): duplicate-safe append. -/
def addPersonFromSocket (st : StoreState) (person : Person) : StoreState :=
  if st.people.any (fun p => p.id == person.id) then st
  else { st with people := st.people ++ [person] }

/-- `_updatePersonFromSocket` (useStore.ts lines 168-172). -/
def updatePersonFromSocket (st : StoreState) (person : Person) : StoreState :=
  { st with people := st.people.map (fun p => if p.id == person.id then person else p) }

/-- `_deletePersonFromSocket` (useStore.ts lines 174-180). -/
def deletePersonFromSocket (st : StoreState) (id : String) : StoreState :=
  { st with
    people := st.people.filter (fun p => p.id ≠ id),
    links := st.links.filter (fun l => l.sourceId ≠ id ∧ l.targetId ≠ id),
    selectedPersonId := if st.selectedPersonId = some id then none else st.selectedPersonId }

/-- `_addLinkFromSocket` (useStore.ts lines 182-190): duplicate-safe append. -/
def addLinkFromSocket (st : StoreState) (link : Link) : StoreState :=
  if st.links.any (fun l => l.id == link.id) then st
  else { st with links := st.links ++ [link] }

/-- `_updateLinkFromSocket` (useStore.ts lines 192-196). -/
def updateLinkFromSocket (st : StoreState) (link : Link) : StoreState :=
  { st with links := st.links.map (fun l => if l.id == link.id then link else l) }

/-- `_deleteLinkFromSocket` (useStore.ts lines 198-203). -/
def deleteLinkFromSocket (st : StoreState) (id : String) : StoreState :=
  { st with
    links := st.links.filter (fun l => l.id ≠ id),
    selectedLinkId := if st.selectedLinkId = some id then none else st.selectedLinkId }

/-- The six broadcast events dispatched by `initializeStore`
(useStore.ts lines 90-140). -/
inductive SocketEvent where
  | personCreated (person : Person)
  | personUpdated (person : Person)
  | personDeleted (id : String)
  | linkCreated (link : Link)
  | linkUpdated (link : Link)
  | linkDeleted (id : String)
  deriving DecidableEq, Repr

/-- The pending-operation key each handler checks before applying the
event. -/
def eventKey : SocketEvent → String
  | .personCreated person => personCreateKey person.id
  | .personUpdated person => personUpdateKey person.id
  | .personDeleted id => personDeleteKey id
  | .linkCreated link => linkCreateKey link.id
  | .linkUpdated link => linkUpdateKey link.id
  | .linkDeleted id => linkDeleteKey id

/-- The non-suppressed path of each handler: apply the event to local state. -/
def applySocketEvent (st : StoreState) : SocketEvent → StoreState
  | .personCreated person => addPersonFromSocket st person
  | .personUpdated person => updatePersonFromSocket st person
  | .personDeleted id => deletePersonFromSocket st id
  | .linkCreated link => addLinkFromSocket st link
  | .linkUpdated link => updateLinkFromSocket st link
  | .linkDeleted id => deleteLinkFromSocket st id

/-- The uniform guard of the six handlers (useStore.ts lines 91-133): if the
event's key is pending, consume the event and drop the marker; otherwise
apply it. -/
def handleSocketEvent (st : StoreState) (ev : SocketEvent) : StoreState :=
  if st.pending.contains (eventKey ev)
  then { st with pending := pendingDelete st.pending (eventKey ev) }
  else applySocketEvent st ev

/-- `selectPerson` (useStore.ts lines 382-384). -/
def selectPerson (st : StoreState) (id : Option String) : StoreState :=
  { st with selectedPersonId := id, selectedLinkId := none }

/-- `selectLink` (useStore.ts lines 386-388). -/
def selectLink (st : StoreState) (id : Option String) : StoreState :=
  { st with selectedLinkId := id, selectedPersonId := none }

/-- `clearSelection` (useStore.ts lines 390-392). -/
def clearSelection (st : StoreState) : StoreState :=
  { st with selectedPersonId := none, selectedLinkId := none }

/-- The operations the selection claims quantify over: the three selection
actions and the two deletion-from-under-selection socket events. -/
inductive SelOp where
  | doSelectPerson (id : Option String)
  | doSelectLink (id : Option String)
  | doClearSelection
  | personDeletedEvt (id : String)
  | linkDeletedEvt (id : String)
  deriving DecidableEq, Repr

/-- Interpretation of a selection operation on the store. -/
def applySelOp (st : StoreState) : SelOp → StoreState
  | .doSelectPerson id => selectPerson st id
  | .doSelectLink id => selectLink st id
  | .doClearSelection => clearSelection st
  | .personDeletedEvt id => deletePersonFromSocket st id
  | .linkDeletedEvt id => deleteLinkFromSocket st id

/-- The single-selection invariant: at most one of the two selection fields
is set. -/
def SelInv (st : StoreState) : Prop :=
  st.selectedPersonId = none ∨ st.selectedLinkId = none

/-- Does link `l` run between endpoint ids `x` and `y` (in either
orientation)? -/
def linkBetweenB (l : Link) (x y : String) : Bool :=
  (l.sourceId == x && l.targetId == y) || (l.sourceId == y && l.targetId == x)

/-- Does the ordered pair `pq` match the unordered id pair `{x, y}`? -/
def pairMatchB (pq : Person × Person) (x y : String) : Bool :=
  (pq.1.id == x && pq.2.id == y) || (pq.1.id == y && pq.2.id == x)

/-- The orientation-independent content of a derived link: its unordered
endpoint pair together with its description. -/
def streamCore (l : Link) : Sym2 String × String :=
  (Sym2.mk (l.sourceId, l.targetId), l.description)

/-! Concrete fixtures used by counterexamples and witnesses. -/

def alice : Person := { id := "a", name := "Alice", stream := some "ML" }
def bob : Person := { id := "b", name := "Bob", stream := some "ml" }
def carol : Person := { id := "c", name := "Carol", stream := some " ml " }
def dave : Person := { id := "d", name := "Dave" }

def nlpAlice : Person := { id := "a", name := "Alice", interests := some ["nlp", "vision"] }
def nlpBob : Person := { id := "b", name := "Bob", interests := some ["vision", "nlp", "robotics"] }
def dupInterests : Person := { id := "d", name := "Dup", interests := some ["nlp", "nlp"] }

/-- Dedup-key collision fixture: pair (a,b) with interest "c" and pair (a,c)
with interest "b" both get the key "a-b-c". -/
def collA : Person := { id := "a", name := "A", interests := some ["c", "b"] }
def collB : Person := { id := "b", name := "B", interests := some ["c"] }
def collC : Person := { id := "c", name := "C", interests := some ["b"] }

/-- Case-sensitivity fixture: same interest up to letter case. -/
def caseU : Person := { id := "u", name := "U", stream := some "NLP", interests := some ["NLP"] }
def caseV : Person := { id := "v", name := "V", stream := some "nlp", interests := some ["nlp"] }

def linkAB : Link :=
  { id := "l1", sourceId := "a", targetId := "b", description := "knows",
    type := LinkType.collaborator }

/-- A small store: Alice selected, one manual link between Alice and Bob. -/
def baseState : StoreState :=
  { people := [alice, bob], links := [linkAB], selectedPersonId := some "a" }

section SanityChecks

example : (generateStreamLinks [alice, bob, carol, dave]).length = 3 := by decide
example : (generateStreamLinks [alice, dave]).length = 0 := by decide
example : (generateStreamLinks [alice, bob]).map Link.id = ["stream-a-b"] := by decide
example : (generateStreamLinks [bob, alice]).map Link.id = ["stream-b-a"] := by decide
example : (generateStreamLinks [alice, bob]).map Link.description = ["Ml"] := by decide
example : (generateInterestLinks [nlpAlice, nlpBob]).length = 2 := by decide
example : (generateInterestLinks [nlpAlice, dupInterests]).map Link.description = ["nlp"] := by decide
example : (generateInterestLinks [collA, collB, collC]).map Link.description = ["c"] := by decide
example : (generateInterestLinks [collA, collC, collB]).map Link.description = ["b"] := by decide

end SanityChecks

/-! Basic lemmas about the helper structures. -/

theorem mem_firstDedup {k : String} : ∀ {l : List String}, k ∈ firstDedup l ↔ k ∈ l
  | [] => Iff.rfl
  | x :: xs => by
    simp only [firstDedup, List.mem_cons, List.mem_filter, decide_eq_true_eq]
    constructor
    · rintro (rfl | ⟨h, _⟩)
      · exact Or.inl rfl
      · exact Or.inr (mem_firstDedup.mp h)
    · rintro (rfl | h)
      · exact Or.inl rfl
      · by_cases hk : k = x
        · exact Or.inl hk
        · exact Or.inr ⟨mem_firstDedup.mpr h, hk⟩

theorem nodup_firstDedup : ∀ (l : List String), (firstDedup l).Nodup
  | [] => List.nodup_nil
  | x :: xs => by
    simp only [firstDedup, List.nodup_cons]
    refine ⟨fun hx => ?_, (nodup_firstDedup xs).filter _⟩
    have := (List.mem_filter.mp hx).2
    simp at this

theorem mem_offDiagPairs {pq : Person × Person} :
    ∀ {l : List Person}, pq ∈ offDiagPairs l ↔ [pq.1, pq.2].Sublist l := by
  intro l
  induction l with
  | nil => simp [offDiagPairs]
  | cons p ps ih =>
    simp only [offDiagPairs, List.mem_append, List.mem_map]
    constructor
    · rintro (⟨q, hq, rfl⟩ | h)
      · exact (List.singleton_sublist.mpr hq).cons₂ p
      · exact (ih.mp h).cons p
    · intro h
      cases h with
      | cons _ h' => exact Or.inr (ih.mpr h')
      | cons₂ _ h' =>
        left
        exact ⟨pq.2, List.singleton_sublist.mp h', rfl⟩

theorem offDiag_mem {pq : Person × Person} {l : List Person}
    (h : pq ∈ offDiagPairs l) : pq.1 ∈ l ∧ pq.2 ∈ l := by
  have hs := mem_offDiagPairs.mp h
  exact ⟨hs.subset (by simp), hs.subset (by simp)⟩

theorem offDiag_ids_ne {pq : Person × Person} {l : List Person}
    (hnd : (l.map Person.id).Nodup) (h : pq ∈ offDiagPairs l) :
    pq.1.id ≠ pq.2.id := by
  have hs := (mem_offDiagPairs.mp h).map Person.id
  have := hnd.sublist hs
  simp only [List.map_cons, List.map_nil, List.nodup_cons] at this
  simpa using this.1

theorem mem_streamGroup {p : Person} {people : List Person} {k : String} :
    p ∈ streamGroup people k ↔ p ∈ people ∧ streamKey p = some k := by
  simp [streamGroup, List.mem_filter]

theorem mem_streamKeys {people : List Person} {k : String} :
    k ∈ firstDedup (people.filterMap streamKey) ↔ ∃ p ∈ people, streamKey p = some k := by
  rw [mem_firstDedup]; exact List.mem_filterMap

theorem streamGroup_ids_nodup {people : List Person}
    (hnd : (people.map Person.id).Nodup) (k : String) :
    ((streamGroup people k).map Person.id).Nodup :=
  List.Nodup.sublist ((List.filter_sublist people).map Person.id) hnd

theorem id_mem_streamGroup {people : List Person} (hnd : (people.map Person.id).Nodup)
    {a : Person} (ha : a ∈ people) (k : String) :
    a.id ∈ (streamGroup people k).map Person.id ↔ streamKey a = some k := by
  constructor
  · intro h
    obtain ⟨p, hp, hpid⟩ := List.mem_map.mp h
    obtain ⟨hp1, hp2⟩ := mem_streamGroup.mp hp
    have hpa : p = a := List.inj_on_of_nodup_map hnd hp1 ha hpid
    exact hpa ▸ hp2
  · intro h
    exact List.mem_map_of_mem _ (mem_streamGroup.mpr ⟨ha, h⟩)

theorem sum_map_single {β : Type} {l : List β} {g : β → Nat} {k₀ : β}
    (hnd : l.Nodup) (hk : k₀ ∈ l) (h1 : g k₀ = 1)
    (h0 : ∀ k ∈ l, k ≠ k₀ → g k = 0) : (l.map g).sum = 1 := by
  induction l with
  | nil => cases hk
  | cons x xs ih =>
    rw [List.nodup_cons] at hnd
    rcases List.mem_cons.mp hk with rfl | hk'
    · have hrest : (xs.map g).sum = 0 := by
        apply List.sum_eq_zero
        intro v hv
        obtain ⟨k, hkxs, rfl⟩ := List.mem_map.mp hv
        exact h0 k (List.mem_cons_of_mem _ hkxs)
          (fun h => hnd.1 (by rw [h] at hkxs; exact hkxs))
      simp [h1, hrest]
    · have hx : g x = 0 :=
        h0 x (List.mem_cons_self _ _) (fun h => hnd.1 (by rw [h]; exact hk'))
      rw [List.map_cons, List.sum_cons, hx,
        ih hnd.2 hk' (fun k hkk hne => h0 k (List.mem_cons_of_mem _ hkk) hne)]

theorem countP_offDiag_zero {l : List Person} {x y : String}
    (h : x ∉ l.map Person.id ∨ y ∉ l.map Person.id) :
    (offDiagPairs l).countP (fun pq => pairMatchB pq x y) = 0 := by
  rw [List.countP_eq_zero]
  intro pq hpq hmatch
  have hmem := offDiag_mem hpq
  have h1 : pq.1.id ∈ l.map Person.id := List.mem_map_of_mem _ hmem.1
  have h2 : pq.2.id ∈ l.map Person.id := List.mem_map_of_mem _ hmem.2
  simp only [pairMatchB, Bool.or_eq_true, Bool.and_eq_true, beq_iff_eq] at hmatch
  rcases hmatch with ⟨hx, hy⟩ | ⟨hy, hx⟩
  · cases h with
    | inl h => exact h (hx ▸ h1)
    | inr h => exact h (hy ▸ h2)
  · cases h with
    | inl h => exact h (hx ▸ h2)
    | inr h => exact h (hy ▸ h1)

theorem countP_offDiag_one {x y : String} :
    ∀ {l : List Person}, (l.map Person.id).Nodup → x ∈ l.map Person.id →
      y ∈ l.map Person.id → x ≠ y →
      (offDiagPairs l).countP (fun pq => pairMatchB pq x y) = 1 := by
  intro l
  induction l with
  | nil => simp
  | cons p ps ih =>
    intro hnd hx hy hxy
    rw [List.map_cons, List.nodup_cons] at hnd
    simp only [offDiagPairs, List.countP_append, List.countP_map]
    by_cases hpx : p.id = x
    · have hyps : y ∈ ps.map Person.id := by
        rcases List.mem_cons.mp hy with h | h
        · exact absurd (h.trans hpx).symm hxy
        · exact h
      have hfun : ((fun pq => pairMatchB pq x y) ∘ fun q => (p, q))
          = (fun q => q.id == y) := by
        funext q
        have hxx : (x == x) = true := beq_self_eq_true x
        have hxyb : (x == y) = false := beq_eq_false_iff_ne.mpr hxy
        simp [pairMatchB, hpx, hxx, hxyb]
      rw [hfun]
      have hcnt : List.countP (fun q => q.id == y) ps = 1 := by
        have h1 : List.countP (fun q => q.id == y) ps
            = List.countP (fun z => z == y) (ps.map Person.id) := by
          rw [List.countP_map]; rfl
        rw [h1]
        exact List.count_eq_one_of_mem hnd.2 hyps
      have hz : (offDiagPairs ps).countP (fun pq => pairMatchB pq x y) = 0 :=
        countP_offDiag_zero (Or.inl (hpx ▸ hnd.1))
      omega
    · by_cases hpy : p.id = y
      · have hxps : x ∈ ps.map Person.id := by
          rcases List.mem_cons.mp hx with h | h
          · exact absurd h.symm hpx
          · exact h
        have hfun : ((fun pq => pairMatchB pq x y) ∘ fun q => (p, q))
            = (fun q => q.id == x) := by
          funext q
          have hyy : (y == y) = true := beq_self_eq_true y
          have hyxb : (y == x) = false := beq_eq_false_iff_ne.mpr (Ne.symm hxy)
          simp [pairMatchB, hpy, hyy, hyxb]
        rw [hfun]
        have hcnt : List.countP (fun q => q.id == x) ps = 1 := by
          have h1 : List.countP (fun q => q.id == x) ps
              = List.countP (fun z => z == x) (ps.map Person.id) := by
            rw [List.countP_map]; rfl
          rw [h1]
          exact List.count_eq_one_of_mem hnd.2 hxps
        have hz : (offDiagPairs ps).countP (fun pq => pairMatchB pq x y) = 0 :=
          countP_offDiag_zero (Or.inr (hpy ▸ hnd.1))
        omega
      · have hxps : x ∈ ps.map Person.id := by
          rcases List.mem_cons.mp hx with h | h
          · exact absurd h.symm hpx
          · exact h
        have hyps : y ∈ ps.map Person.id := by
          rcases List.mem_cons.mp hy with h | h
          · exact absurd h.symm hpy
          · exact h
        have hfun : ((fun pq => pairMatchB pq x y) ∘ fun q => (p, q))
            = (fun _ => false) := by
          funext q
          have hxb : (p.id == x) = false := beq_eq_false_iff_ne.mpr hpx
          have hyb : (p.id == y) = false := beq_eq_false_iff_ne.mpr hpy
          simp [pairMatchB, hxb, hyb]
        rw [hfun]
        have hz : List.countP (fun _ => false) ps = 0 := by simp
        rw [hz, ih hnd.2 hxps hyps hxy]

theorem sublist_pair_antisymm {α : Type} {x y : α} :
    ∀ {l : List α}, l.Nodup → [x, y].Sublist l → [y, x].Sublist l → x = y := by
  intro l
  induction l with
  | nil => intro _ h; cases h
  | cons z zs ih =>
    intro hnd h1 h2
    rw [List.nodup_cons] at hnd
    cases h1 with
    | cons _ h1' =>
      cases h2 with
      | cons _ h2' => exact ih hnd.2 h1' h2'
      | cons₂ _ h2' =>
        -- here y = z, but h1' : [x, y] <+ zs forces y ∈ zs
        exact absurd (h1'.subset (by simp)) hnd.1
    | cons₂ _ h1' =>
      -- here x = z and h1' : [y] <+ zs
      cases h2 with
      | cons _ h2' =>
        -- h2' : [y, x] <+ zs forces x ∈ zs
        exact absurd (h2'.subset (by simp)) hnd.1
      | cons₂ _ h2' => rfl

theorem countP_generateStreamLinks {people : List Person}
    (hnd : (people.map Person.id).Nodup) {a b : Person}
    (ha : a ∈ people) (hb : b ∈ people) (hab : a.id ≠ b.id) :
    (generateStreamLinks people).countP (fun l => linkBetweenB l a.id b.id)
      = if streamKey a ≠ none ∧ streamKey a = streamKey b then 1 else 0 := by
  rw [generateStreamLinks, List.countP_flatMap]
  have hfun : (List.countP (fun l => linkBetweenB l a.id b.id) ∘
      fun k => streamPairLinks k (streamGroup people k))
      = fun k => (offDiagPairs (streamGroup people k)).countP
          (fun pq => pairMatchB pq a.id b.id) := by
    funext k
    show List.countP _ (streamPairLinks k (streamGroup people k)) = _
    rw [streamPairLinks, List.countP_map]
    rfl
  rw [hfun]
  by_cases hs : streamKey a ≠ none ∧ streamKey a = streamKey b
  · rw [if_pos hs]
    obtain ⟨k₀, hk₀⟩ := Option.ne_none_iff_exists'.mp hs.1
    have hkb : streamKey b = some k₀ := hs.2.symm.trans hk₀
    apply sum_map_single (nodup_firstDedup _) (mem_streamKeys.mpr ⟨a, ha, hk₀⟩)
    · exact countP_offDiag_one (streamGroup_ids_nodup hnd k₀)
        ((id_mem_streamGroup hnd ha k₀).mpr hk₀)
        ((id_mem_streamGroup hnd hb k₀).mpr hkb) hab
    · intro k hk hne
      apply countP_offDiag_zero
      left
      intro hmem
      exact hne (Option.some.inj
        (((id_mem_streamGroup hnd ha k).mp hmem).symm.trans hk₀))
  · rw [if_neg hs]
    apply List.sum_eq_zero
    intro v hv
    obtain ⟨k, hkmem, rfl⟩ := List.mem_map.mp hv
    apply countP_offDiag_zero
    by_contra hcon
    push_neg at hcon
    obtain ⟨hamem, hbmem⟩ := hcon
    have hak : streamKey a = some k := (id_mem_streamGroup hnd ha k).mp hamem
    have hbk : streamKey b = some k := (id_mem_streamGroup hnd hb k).mp hbmem
    exact hs ⟨by simp [hak], hak.trans hbk.symm⟩

theorem mem_generateStreamLinks {people : List Person} {l : Link}
    (hnd : (people.map Person.id).Nodup)
    (hl : l ∈ generateStreamLinks people) :
    ∃ p ∈ people, ∃ q ∈ people, ∃ k, p.id ≠ q.id ∧
      streamKey p = some k ∧ streamKey q = some k ∧ l = mkStreamLink p q k := by
  rw [generateStreamLinks, List.mem_flatMap] at hl
  obtain ⟨k, hk, hl⟩ := hl
  rw [streamPairLinks, List.mem_map] at hl
  obtain ⟨pq, hpq, rfl⟩ := hl
  obtain ⟨h1, h2⟩ := offDiag_mem hpq
  obtain ⟨h1', h1k⟩ := mem_streamGroup.mp h1
  obtain ⟨h2', h2k⟩ := mem_streamGroup.mp h2
  exact ⟨pq.1, h1', pq.2, h2', k,
    offDiag_ids_ne (streamGroup_ids_nodup hnd k) hpq, h1k, h2k, rfl⟩

/-- C1: `generateStreamLinks` groups entities whose `stream` values agree
after lowercasing and trimming and produces exactly one stream link per
unordered pair of distinct entities with equal stream keys (so a group of n
members yields n choose 2 links and a group of size 1 yields none); every
produced link joins two distinct entities that both carry equal stream keys
and is exactly the record built by `mkStreamLink` (type `stream`,
description = the capitalized group label); concretely, three people with
streams "ML"/"ml"/" ml " yield exactly 3 links and a person with a unique
stream yields none. -/
theorem generateStreamLinks_spec (people : List Person)
    (hnd : (people.map Person.id).Nodup) :
    (∀ a ∈ people, ∀ b ∈ people, a.id ≠ b.id →
      (generateStreamLinks people).countP (fun l => linkBetweenB l a.id b.id)
        = if streamKey a ≠ none ∧ streamKey a = streamKey b then 1 else 0)
    ∧ (∀ l ∈ generateStreamLinks people, ∃ p ∈ people, ∃ q ∈ people, ∃ k,
        p.id ≠ q.id ∧ streamKey p = some k ∧ streamKey q = some k ∧
        l = mkStreamLink p q k)
    ∧ (generateStreamLinks [alice, bob, carol, dave]).length = 3
    ∧ (generateStreamLinks [alice, dave]).length = 0 :=
  ⟨fun _ ha b hb hab => countP_generateStreamLinks hnd ha hb hab,
   fun _ hl => mem_generateStreamLinks hnd hl,
   by decide, by decide⟩

/-- Witness for C1 at a concrete input: among Alice ("ML"), Bob ("ml"),
Carol (" ml ") and streamless Dave, exactly one stream link joins Alice and
Bob. -/
theorem generateStreamLinks_spec_witness :
    (([alice, bob, carol, dave].map Person.id).Nodup) ∧
    (generateStreamLinks [alice, bob, carol, dave]).countP
      (fun l => linkBetweenB l alice.id bob.id) = 1 := by
  constructor
  · decide
  · have h := (generateStreamLinks_spec [alice, bob, carol, dave] (by decide)).1
      alice (by decide) bob (by decide) (by decide)
    rw [h]
    decide

theorem mem_dedupLoop : ∀ {ls : List Link} {seen : List String} {acc : List Link}
    {l : Link}, l ∈ dedupLoop ls seen acc → l ∈ acc ∨ l ∈ ls := by
  intro ls
  induction ls with
  | nil => intro seen acc l h; exact Or.inl h
  | cons l' ls ih =>
    intro seen acc l h
    rw [dedupLoop] at h
    by_cases hc : seen.contains (linkKey l')
    · rw [if_pos hc] at h
      rcases ih h with h1 | h1
      · exact Or.inl h1
      · exact Or.inr (List.mem_cons_of_mem _ h1)
    · rw [if_neg hc] at h
      rcases ih h with h1 | h1
      · rcases List.mem_append.mp h1 with h2 | h2
        · exact Or.inl h2
        · exact Or.inr (List.mem_cons.mpr (Or.inl (List.mem_singleton.mp h2)))
      · exact Or.inr (List.mem_cons_of_mem _ h1)

theorem mem_sharedInterests {x : String} {p q : Person} :
    x ∈ sharedInterests p q ↔ x ∈ interestsOf p ∧ x ∈ interestsOf q := by
  simp [sharedInterests, List.mem_filter, List.contains_iff_exists_mem_beq,
    beq_iff_eq]

theorem mem_rawInterestLinks {people : List Person} {l : Link}
    (hl : l ∈ rawInterestLinks people) :
    ∃ pq ∈ offDiagPairs people, ∃ x,
      x ∈ sharedInterests pq.1 pq.2 ∧ l = mkInterestLink pq.1 pq.2 x := by
  rw [rawInterestLinks, List.mem_flatMap] at hl
  obtain ⟨pq, hpq, hl⟩ := hl
  by_cases hc : interestsOf pq.1 = [] ∨ interestsOf pq.2 = []
  · rw [if_pos hc] at hl
    cases hl
  · rw [if_neg hc] at hl
    obtain ⟨x, hx, rfl⟩ := List.mem_map.mp hl
    exact ⟨pq, hpq, x, hx, rfl⟩

theorem mem_generateInterestLinks {people : List Person} {l : Link}
    (hl : l ∈ generateInterestLinks people) :
    ∃ pq ∈ offDiagPairs people, ∃ x,
      x ∈ sharedInterests pq.1 pq.2 ∧ l = mkInterestLink pq.1 pq.2 x := by
  rcases mem_dedupLoop hl with h | h
  · cases h
  · exact mem_rawInterestLinks h

/-- C8: when all entity ids are pairwise distinct, no derived relationship —
stream or interest — is a self-loop: its `sourceId` and `targetId` always
differ. -/
theorem no_self_pairing (people : List Person)
    (hnd : (people.map Person.id).Nodup) :
    ∀ l ∈ generateStreamLinks people ++ generateInterestLinks people,
      l.sourceId ≠ l.targetId := by
  intro l hl
  rcases List.mem_append.mp hl with h | h
  · obtain ⟨p, _, q, _, k, hpq, _, _, rfl⟩ := mem_generateStreamLinks hnd h
    simpa [mkStreamLink] using hpq
  · obtain ⟨pq, hpq, x, _, rfl⟩ := mem_generateInterestLinks h
    simpa [mkInterestLink] using offDiag_ids_ne hnd hpq

/-- Witness for C8 at a concrete input. -/
theorem no_self_pairing_witness :
    (([alice, bob].map Person.id).Nodup) ∧
    ∀ l ∈ generateStreamLinks [alice, bob] ++ generateInterestLinks [alice, bob],
      l.sourceId ≠ l.targetId :=
  ⟨by decide, no_self_pairing [alice, bob] (by decide)⟩

theorem mem_generateStreamLinks_shape {people : List Person} {l : Link}
    (hl : l ∈ generateStreamLinks people) : ∃ p q k, l = mkStreamLink p q k := by
  rw [generateStreamLinks, List.mem_flatMap] at hl
  obtain ⟨k, _, hl⟩ := hl
  obtain ⟨pq, _, rfl⟩ := List.mem_map.mp hl
  exact ⟨pq.1, pq.2, k, rfl⟩

/-- C6 (amended): every derived link's id is reconstructible from the link's
own endpoint ids in their stored orientation (plus, for interest links, the
shared interest): `stream-<sourceId>-<targetId>` and
`interest-<sourceId>-<targetId>-<description>`.  The orientation follows the
input list order, not a sorted order. -/
theorem derived_link_id_shape (people : List Person) :
    (∀ l ∈ generateStreamLinks people,
      l.id = "stream-" ++ l.sourceId ++ "-" ++ l.targetId ∧ l.type = LinkType.stream)
    ∧ (∀ l ∈ generateInterestLinks people,
      l.id = "interest-" ++ l.sourceId ++ "-" ++ l.targetId ++ "-" ++ l.description
        ∧ l.type = LinkType.interest) := by
  constructor
  · intro l hl
    obtain ⟨p, q, k, rfl⟩ := mem_generateStreamLinks_shape hl
    exact ⟨rfl, rfl⟩
  · intro l hl
    obtain ⟨pq, _, x, _, rfl⟩ := mem_generateInterestLinks hl
    exact ⟨rfl, rfl⟩

/-- C6 counterexample: the unordered pair {Alice, Bob} yields link id
"stream-a-b" in one input order and "stream-b-a" in the other, so the id of
a derived link is not determined by (and not sorted from) the endpoint
pair. -/
theorem derived_link_id_order_dependent :
    (generateStreamLinks [alice, bob]).map Link.id = ["stream-a-b"]
    ∧ (generateStreamLinks [bob, alice]).map Link.id = ["stream-b-a"]
    ∧ ("stream-a-b" : String) ≠ "stream-b-a" :=
  ⟨by decide, by decide, by decide⟩

/-- Witness for C6 (amended) at a concrete input. -/
theorem derived_link_id_shape_witness :
    (mkStreamLink alice bob "ml" ∈ generateStreamLinks [alice, bob]) ∧
    (mkStreamLink alice bob "ml").id
      = "stream-" ++ (mkStreamLink alice bob "ml").sourceId ++ "-"
        ++ (mkStreamLink alice bob "ml").targetId :=
  ⟨by decide, ((derived_link_id_shape [alice, bob]).1 _ (by decide)).1⟩

/-- C10: interest matching is exact string equality — every interest link's
description occurs verbatim in both endpoints' interest lists; concretely,
interests "NLP" vs "nlp" produce no interest link while streams "NLP" vs
"nlp" do produce a stream link (stream grouping normalizes case, interest
matching does not). -/
theorem interest_matching_exact (people : List Person) :
    (∀ l ∈ generateInterestLinks people, ∃ p ∈ people, ∃ q ∈ people,
        l.sourceId = p.id ∧ l.targetId = q.id ∧
        l.description ∈ interestsOf p ∧ l.description ∈ interestsOf q)
    ∧ generateInterestLinks [caseU, caseV] = []
    ∧ (generateStreamLinks [caseU, caseV]).length = 1 := by
  refine ⟨?_, by decide, by decide⟩
  intro l hl
  obtain ⟨pq, hpq, x, hx, rfl⟩ := mem_generateInterestLinks hl
  have hmem := offDiag_mem hpq
  have hsh := mem_sharedInterests.mp hx
  exact ⟨pq.1, hmem.1, pq.2, hmem.2, rfl, rfl, hsh.1, hsh.2⟩

/-- Witness for C10 at a concrete input. -/
theorem interest_matching_exact_witness :
    (mkInterestLink nlpAlice nlpBob "nlp" ∈ generateInterestLinks [nlpAlice, nlpBob]) ∧
    ∃ p ∈ [nlpAlice, nlpBob], ∃ q ∈ [nlpAlice, nlpBob],
      (mkInterestLink nlpAlice nlpBob "nlp").sourceId = p.id ∧
      (mkInterestLink nlpAlice nlpBob "nlp").targetId = q.id ∧
      (mkInterestLink nlpAlice nlpBob "nlp").description ∈ interestsOf p ∧
      (mkInterestLink nlpAlice nlpBob "nlp").description ∈ interestsOf q :=
  ⟨by decide, (interest_matching_exact [nlpAlice, nlpBob]).1 _ (by decide)⟩

/-- C4: a broadcast event whose operation key is in the pending set is
consumed: the marker is removed from the set and people, links, selection
and error are left completely unchanged (in particular no duplicate entity
can be appended by a pending `created` echo). -/
theorem echo_suppression (st : StoreState) (ev : SocketEvent)
    (h : eventKey ev ∈ st.pending) :
    (handleSocketEvent st ev).people = st.people
    ∧ (handleSocketEvent st ev).links = st.links
    ∧ (handleSocketEvent st ev).selectedPersonId = st.selectedPersonId
    ∧ (handleSocketEvent st ev).selectedLinkId = st.selectedLinkId
    ∧ (handleSocketEvent st ev).error = st.error
    ∧ eventKey ev ∉ (handleSocketEvent st ev).pending := by
  have hc : st.pending.contains (eventKey ev) = true := List.elem_eq_true_of_mem h
  rw [handleSocketEvent, if_pos hc]
  refine ⟨rfl, rfl, rfl, rfl, rfl, ?_⟩
  intro hmem
  have := (List.mem_filter.mp hmem).2
  simp at this

/-- Witness for C4 at a concrete input: a `person:created` echo for pending
Bob leaves the one-person store untouched. -/
theorem echo_suppression_witness :
    (eventKey (SocketEvent.personCreated bob)
        ∈ (StoreState.mk [alice] [] none none none ["person:create:b"]).pending)
    ∧ (handleSocketEvent (StoreState.mk [alice] [] none none none ["person:create:b"])
        (SocketEvent.personCreated bob)).people = [alice] :=
  ⟨by decide,
   (echo_suppression (StoreState.mk [alice] [] none none none ["person:create:b"])
     (SocketEvent.personCreated bob) (by decide)).1⟩

/-- C5: for the id of a person present in local state, the single optimistic
update of `deletePerson` removes exactly that person and exactly the links
touching it, clears the person selection iff it pointed at the deleted id,
and leaves the link selection and the error untouched; the success path of
`deletePerson` carries exactly this one update on people, links and
selection. -/
theorem deletePerson_optimistic_spec (st : StoreState) (id : String)
    (h : ∃ p ∈ st.people, p.id = id) :
    (∀ p, p ∈ (deletePersonOptimistic st id).people ↔ p ∈ st.people ∧ p.id ≠ id)
    ∧ (∀ l, l ∈ (deletePersonOptimistic st id).links ↔
        l ∈ st.links ∧ l.sourceId ≠ id ∧ l.targetId ≠ id)
    ∧ (deletePersonOptimistic st id).selectedPersonId
        = (if st.selectedPersonId = some id then none else st.selectedPersonId)
    ∧ (deletePersonOptimistic st id).selectedLinkId = st.selectedLinkId
    ∧ (deletePersonOptimistic st id).error = st.error
    ∧ (deletePerson st id true).people = (deletePersonOptimistic st id).people
    ∧ (deletePerson st id true).links = (deletePersonOptimistic st id).links
    ∧ (deletePerson st id true).selectedPersonId
        = (deletePersonOptimistic st id).selectedPersonId
    ∧ (deletePerson st id true).selectedLinkId
        = (deletePersonOptimistic st id).selectedLinkId := by
  obtain ⟨p₀, hp₀, hid⟩ := h
  have hsome : (st.people.find? (fun p => p.id == id)).isSome :=
    List.find?_isSome.mpr ⟨p₀, hp₀, by simp [hid]⟩
  refine ⟨?_, ?_, rfl, rfl, rfl, ?_, ?_, ?_, ?_⟩
  · intro p
    simp [deletePersonOptimistic, List.mem_filter]
  · intro l
    simp [deletePersonOptimistic, List.mem_filter]
  all_goals
    cases hfind : st.people.find? (fun p => p.id == id) with
    | none => rw [hfind] at hsome; cases hsome
    | some q => rw [deletePerson, hfind]; rfl

/-- Witness for C5 at a concrete input: deleting Alice from the base store. -/
theorem deletePerson_optimistic_spec_witness :
    (∃ p ∈ baseState.people, p.id = "a")
    ∧ (∀ p, p ∈ (deletePersonOptimistic baseState "a").people ↔
        p ∈ baseState.people ∧ p.id ≠ "a") :=
  ⟨⟨alice, by decide, rfl⟩,
   (deletePerson_optimistic_spec baseState "a" ⟨alice, by decide, rfl⟩).1⟩

theorem selInv_step (st : StoreState) (op : SelOp) (h : SelInv st) :
    SelInv (applySelOp st op) := by
  cases op with
  | doSelectPerson id => exact Or.inr rfl
  | doSelectLink id => exact Or.inl rfl
  | doClearSelection => exact Or.inl rfl
  | personDeletedEvt id =>
    cases h with
    | inl h => left; simp [applySelOp, deletePersonFromSocket, h]
    | inr h => right; simpa [applySelOp, deletePersonFromSocket] using h
  | linkDeletedEvt id =>
    cases h with
    | inl h => left; simpa [applySelOp, deleteLinkFromSocket] using h
    | inr h => right; simp [applySelOp, deleteLinkFromSocket, h]

/-- C9: starting from any state with at most one active selection, every
sequence of selection operations (select entity, select relationship, clear,
or a deletion-from-under-selection broadcast event) preserves the at most
one invariant; clearing the selection is idempotent; and a remote deletion
event for the currently selected record returns the selection to none. -/
theorem selection_invariant (st₀ : StoreState) (h₀ : SelInv st₀) :
    (∀ ops : List SelOp, SelInv (ops.foldl applySelOp st₀))
    ∧ (∀ st, clearSelection (clearSelection st) = clearSelection st)
    ∧ (∀ st id, SelInv st → st.selectedPersonId = some id →
        (deletePersonFromSocket st id).selectedPersonId = none
        ∧ (deletePersonFromSocket st id).selectedLinkId = none)
    ∧ (∀ st id, SelInv st → st.selectedLinkId = some id →
        (deleteLinkFromSocket st id).selectedPersonId = none
        ∧ (deleteLinkFromSocket st id).selectedLinkId = none) := by
  refine ⟨?_, fun st => rfl, ?_, ?_⟩
  · intro ops
    induction ops generalizing st₀ with
    | nil => exact h₀
    | cons op ops ih => exact ih _ (selInv_step st₀ op h₀)
  · intro st id hinv hsel
    refine ⟨by simp [deletePersonFromSocket, hsel], ?_⟩
    cases hinv with
    | inl h => rw [hsel] at h; cases h
    | inr h => simpa [deletePersonFromSocket] using h
  · intro st id hinv hsel
    refine ⟨?_, by simp [deleteLinkFromSocket, hsel]⟩
    cases hinv with
    | inl h => simpa [deleteLinkFromSocket] using h
    | inr h => rw [hsel] at h; cases h

/-- Witness for C9 at a concrete input: from the base store (Alice selected)
the sequence select-link then clear ends with no active selection overlap. -/
theorem selection_invariant_witness :
    SelInv baseState
    ∧ SelInv ([SelOp.doSelectLink (some "l1"), SelOp.doClearSelection].foldl
        applySelOp baseState) :=
  ⟨Or.inr rfl,
   (selection_invariant baseState (Or.inr rfl)).1
     [SelOp.doSelectLink (some "l1"), SelOp.doClearSelection]⟩

/-! Rollback lemmas (claim C3). -/

theorem mem_pendingAdd {p : List String} {k x : String} :
    x ∈ pendingAdd p k ↔ x ∈ p ∨ x = k := by
  by_cases hc : p.contains k
  · rw [pendingAdd, if_pos hc]
    have hk : k ∈ p := List.mem_of_elem_eq_true hc
    constructor
    · exact Or.inl
    · rintro (h | rfl)
      · exact h
      · exact hk
  · rw [pendingAdd, if_neg hc]
    simp

theorem mem_pendingDelete {p : List String} {k x : String} :
    x ∈ pendingDelete p k ↔ x ∈ p ∧ x ≠ k := by
  simp [pendingDelete, List.mem_filter]

theorem mem_foldl_pendingDelete : ∀ {ks p : List String} {x : String},
    x ∈ ks.foldl pendingDelete p ↔ x ∈ p ∧ x ∉ ks := by
  intro ks
  induction ks with
  | nil => simp
  | cons k ks ih =>
    intro p x
    rw [List.foldl_cons, ih, mem_pendingDelete, List.mem_cons]
    constructor
    · rintro ⟨⟨h1, h2⟩, h3⟩
      exact ⟨h1, by rintro (rfl | h); exact h2 rfl; exact h3 h⟩
    · rintro ⟨h1, h2⟩
      exact ⟨⟨h1, fun hx => h2 (Or.inl hx)⟩, fun hx => h2 (Or.inr hx)⟩

theorem filter_beq_single {α : Type} {f : α → String} {id : String} :
    ∀ {l : List α} {q : α}, (l.map f).Nodup → q ∈ l → f q = id →
      l.filter (fun x => f x == id) = [q] := by
  intro l
  induction l with
  | nil => intro q _ hq; cases hq
  | cons x xs ih =>
    intro q hnd hq hid
    rw [List.map_cons, List.nodup_cons] at hnd
    by_cases hx : f x = id
    · have hqx : q = x := by
        rcases List.mem_cons.mp hq with rfl | hq'
        · rfl
        · exfalso
          apply hnd.1
          rw [hx, ← hid]
          exact List.mem_map_of_mem f hq'
      subst hqx
      have hrest : xs.filter (fun y => f y == id) = [] := by
        rw [List.filter_eq_nil_iff]
        intro y hy
        simp only [beq_iff_eq]
        intro hyid
        apply hnd.1
        rw [hx, ← hyid]
        exact List.mem_map_of_mem f hy
      rw [List.filter_cons_of_pos (by simp [hx]), hrest]
    · have hq' : q ∈ xs := by
        rcases List.mem_cons.mp hq with rfl | hq'
        · exact absurd hid hx
        · exact hq'
      rw [List.filter_cons_of_neg (by simp [hx])]
      exact ih hnd.2 hq' hid

theorem filter_ne_append_perm {α : Type} {f : α → String} {id : String}
    {l : List α} {q : α} (hnd : (l.map f).Nodup) (hq : q ∈ l) (hid : f q = id) :
    (l.filter (fun x => f x ≠ id) ++ [q]).Perm l := by
  have h1 : l.filter (fun x => f x == id) = [q] := filter_beq_single hnd hq hid
  have h2 : (fun x : α => decide (f x ≠ id)) = (fun x => !(f x == id)) := by
    funext x
    rw [decide_not]
    rfl
  have h3 : l.filter (fun x => f x ≠ id) ++ [q]
      = l.filter (fun x => !(f x == id)) ++ l.filter (fun x => f x == id) := by
    rw [h1, h2]
  rw [h3]
  exact List.perm_append_comm.trans (List.filter_append_perm _ l)

theorem map_swap_back {α : Type} {f : α → String} {l : List α} {id : String}
    {q : α} (u : α) (hnd : (l.map f).Nodup) (hq : q ∈ l) (hqid : f q = id)
    (hu : f u = id) :
    (l.map (fun x => if f x == id then u else x)).map
      (fun x => if f x == id then q else x) = l := by
  rw [List.map_map]
  have hpt : ∀ x ∈ l, ((fun x => if f x == id then q else x) ∘
      (fun x => if f x == id then u else x)) x = (fun x => x) x := by
    intro x hx
    by_cases hxid : f x = id
    · have hb : (f x == id) = true := beq_iff_eq.mpr hxid
      have hbu : (f u == id) = true := beq_iff_eq.mpr hu
      have hqx : q = x := List.inj_on_of_nodup_map hnd hq hx (hqid.trans hxid.symm)
      simp [Function.comp, hb, hbu, hqx]
    · have hb : (f x == id) = false := beq_eq_false_iff_ne.mpr hxid
      simp [Function.comp, hb]
  rw [List.map_congr_left hpt, List.map_id']

theorem addPerson_rollback (st : StoreState) (draft : Person) (newId now : String)
    (hfresh : newId ∉ st.people.map Person.id) :
    (addPerson st draft newId now false).people = st.people
    ∧ (addPerson st draft newId now false).links = st.links
    ∧ (addPerson st draft newId now false).error = some "Failed to save person"
    ∧ personCreateKey newId ∉ (addPerson st draft newId now false).pending := by
  refine ⟨?_, rfl, rfl, ?_⟩
  · show (st.people ++ [{draft with id := newId, createdAt := now, updatedAt := now}]).filter
        (fun p => p.id ≠ newId) = st.people
    rw [List.filter_append]
    have h1 : st.people.filter (fun p => p.id ≠ newId) = st.people := by
      rw [List.filter_eq_self]
      intro p hp
      simp only [decide_eq_true_eq]
      intro hpe
      exact hfresh (hpe ▸ List.mem_map_of_mem Person.id hp)
    have h2 : ([{draft with id := newId, createdAt := now, updatedAt := now}] :
        List Person).filter (fun p => p.id ≠ newId) = [] := by simp
    rw [h1, h2, List.append_nil]
  · show personCreateKey newId ∉
      pendingDelete (pendingAdd st.pending (personCreateKey newId)) (personCreateKey newId)
    rw [mem_pendingDelete]
    rintro ⟨_, h⟩
    exact h rfl

theorem addLink_rollback (st : StoreState) (draft : Link) (newId now : String)
    (hfresh : newId ∉ st.links.map Link.id) :
    (addLink st draft newId now false).people = st.people
    ∧ (addLink st draft newId now false).links = st.links
    ∧ (addLink st draft newId now false).error = some "Failed to save link"
    ∧ linkCreateKey newId ∉ (addLink st draft newId now false).pending := by
  refine ⟨rfl, ?_, rfl, ?_⟩
  · show (st.links ++ [{draft with id := newId, createdAt := now, updatedAt := now}]).filter
        (fun l => l.id ≠ newId) = st.links
    rw [List.filter_append]
    have h1 : st.links.filter (fun l => l.id ≠ newId) = st.links := by
      rw [List.filter_eq_self]
      intro l hl
      simp only [decide_eq_true_eq]
      intro hle
      exact hfresh (hle ▸ List.mem_map_of_mem Link.id hl)
    have h2 : ([{draft with id := newId, createdAt := now, updatedAt := now}] :
        List Link).filter (fun l => l.id ≠ newId) = [] := by simp
    rw [h1, h2, List.append_nil]
  · show linkCreateKey newId ∉
      pendingDelete (pendingAdd st.pending (linkCreateKey newId)) (linkCreateKey newId)
    rw [mem_pendingDelete]
    rintro ⟨_, h⟩
    exact h rfl

theorem updatePerson_rollback (st : StoreState) (id : String)
    (updates : Person → Person) (now : String)
    (hnd : (st.people.map Person.id).Nodup) (h : ∃ p ∈ st.people, p.id = id) :
    (updatePerson st id updates now false).people = st.people
    ∧ (updatePerson st id updates now false).links = st.links
    ∧ (updatePerson st id updates now false).error = some "Failed to update person"
    ∧ personUpdateKey id ∉ (updatePerson st id updates now false).pending := by
  obtain ⟨p₀, hp₀, hid⟩ := h
  have hsome : (st.people.find? (fun p => p.id == id)).isSome :=
    List.find?_isSome.mpr ⟨p₀, hp₀, by simp [hid]⟩
  cases hfind : st.people.find? (fun p => p.id == id) with
  | none => rw [hfind] at hsome; cases hsome
  | some q =>
    have hq : q ∈ st.people := List.mem_of_find?_eq_some hfind
    have hqid : q.id = id := by simpa using List.find?_some hfind
    rw [updatePerson, hfind]
    refine ⟨?_, rfl, rfl, ?_⟩
    · exact map_swap_back _ hnd hq hqid hqid
    · show personUpdateKey id ∉
        pendingDelete (pendingAdd st.pending (personUpdateKey id)) (personUpdateKey id)
      rw [mem_pendingDelete]
      rintro ⟨_, hne⟩
      exact hne rfl

theorem updateLink_rollback (st : StoreState) (id : String)
    (updates : Link → Link) (now : String)
    (hnd : (st.links.map Link.id).Nodup) (h : ∃ l ∈ st.links, l.id = id) :
    (updateLink st id updates now false).people = st.people
    ∧ (updateLink st id updates now false).links = st.links
    ∧ (updateLink st id updates now false).error = some "Failed to update link"
    ∧ linkUpdateKey id ∉ (updateLink st id updates now false).pending := by
  obtain ⟨l₀, hl₀, hid⟩ := h
  have hsome : (st.links.find? (fun l => l.id == id)).isSome :=
    List.find?_isSome.mpr ⟨l₀, hl₀, by simp [hid]⟩
  cases hfind : st.links.find? (fun l => l.id == id) with
  | none => rw [hfind] at hsome; cases hsome
  | some q =>
    have hq : q ∈ st.links := List.mem_of_find?_eq_some hfind
    have hqid : q.id = id := by simpa using List.find?_some hfind
    rw [updateLink, hfind]
    refine ⟨rfl, ?_, rfl, ?_⟩
    · exact map_swap_back _ hnd hq hqid hqid
    · show linkUpdateKey id ∉
        pendingDelete (pendingAdd st.pending (linkUpdateKey id)) (linkUpdateKey id)
      rw [mem_pendingDelete]
      rintro ⟨_, hne⟩
      exact hne rfl

theorem deletePerson_rollback (st : StoreState) (id : String)
    (hnd : (st.people.map Person.id).Nodup) (h : ∃ p ∈ st.people, p.id = id) :
    (deletePerson st id false).people.Perm st.people
    ∧ (deletePerson st id false).links.Perm st.links
    ∧ (deletePerson st id false).error = some "Failed to delete person"
    ∧ personDeleteKey id ∉ (deletePerson st id false).pending
    ∧ (∀ l ∈ st.links, (l.sourceId = id ∨ l.targetId = id) →
        linkDeleteKey l.id ∉ (deletePerson st id false).pending) := by
  obtain ⟨p₀, hp₀, hid⟩ := h
  have hsome : (st.people.find? (fun p => p.id == id)).isSome :=
    List.find?_isSome.mpr ⟨p₀, hp₀, by simp [hid]⟩
  cases hfind : st.people.find? (fun p => p.id == id) with
  | none => rw [hfind] at hsome; cases hsome
  | some q =>
    have hq : q ∈ st.people := List.mem_of_find?_eq_some hfind
    have hqid : q.id = id := by simpa using List.find?_some hfind
    rw [deletePerson, hfind]
    refine ⟨?_, ?_, rfl, ?_, ?_⟩
    · exact filter_ne_append_perm hnd hq hqid
    · have hfil : (fun l : Link => decide (l.sourceId ≠ id ∧ l.targetId ≠ id))
          = (fun l : Link => !((l.sourceId == id) || (l.targetId == id))) := by
        funext l
        simp
        rfl
      show (st.links.filter (fun l => l.sourceId ≠ id ∧ l.targetId ≠ id)
          ++ st.links.filter (fun l => l.sourceId == id || l.targetId == id)).Perm st.links
      rw [show (fun l : Link => decide (l.sourceId ≠ id ∧ l.targetId ≠ id))
          = (fun l : Link => !((l.sourceId == id) || (l.targetId == id))) from hfil]
      exact List.perm_append_comm.trans
        (List.filter_append_perm (fun l => l.sourceId == id || l.targetId == id) st.links)
    · intro hmem
      have h1 := (mem_foldl_pendingDelete.mp hmem).1
      exact (mem_pendingDelete.mp h1).2 rfl
    · intro l hl hinc hmem
      apply (mem_foldl_pendingDelete.mp hmem).2
      refine List.mem_map_of_mem _ (List.mem_filter.mpr ⟨hl, ?_⟩)
      rcases hinc with h | h <;> simp [h]

theorem deleteLink_rollback (st : StoreState) (id : String)
    (hnd : (st.links.map Link.id).Nodup) (h : ∃ l ∈ st.links, l.id = id) :
    (deleteLink st id false).people = st.people
    ∧ (deleteLink st id false).links.Perm st.links
    ∧ (deleteLink st id false).error = some "Failed to delete link"
    ∧ linkDeleteKey id ∉ (deleteLink st id false).pending := by
  obtain ⟨l₀, hl₀, hid⟩ := h
  have hsome : (st.links.find? (fun l => l.id == id)).isSome :=
    List.find?_isSome.mpr ⟨l₀, hl₀, by simp [hid]⟩
  cases hfind : st.links.find? (fun l => l.id == id) with
  | none => rw [hfind] at hsome; cases hsome
  | some q =>
    have hq : q ∈ st.links := List.mem_of_find?_eq_some hfind
    have hqid : q.id = id := by simpa using List.find?_some hfind
    rw [deleteLink, hfind]
    refine ⟨rfl, ?_, rfl, ?_⟩
    · exact filter_ne_append_perm hnd hq hqid
    · show linkDeleteKey id ∉
        pendingDelete (pendingAdd st.pending (linkDeleteKey id)) (linkDeleteKey id)
      rw [mem_pendingDelete]
      rintro ⟨_, hne⟩
      exact hne rfl

/-- C3 (amended): when the remote call of any of the six mutations fails,
the operation rolls back the optimistic change, clears its pending markers
and sets a non-null error.  For creates (under a fresh generated id) and
updates (under unique ids in the store) the people and links lists are
restored exactly; for deletes the captured records are re-appended at the
end of the list, so the restored state equals the snapshot as a multiset
(same members, possibly reordered) rather than exactly. -/
theorem rollback_spec :
    (∀ st draft newId now, newId ∉ st.people.map Person.id →
      (addPerson st draft newId now false).people = st.people
      ∧ (addPerson st draft newId now false).links = st.links
      ∧ (addPerson st draft newId now false).error = some "Failed to save person"
      ∧ personCreateKey newId ∉ (addPerson st draft newId now false).pending)
    ∧ (∀ st id updates now, (st.people.map Person.id).Nodup →
        (∃ p ∈ st.people, p.id = id) →
      (updatePerson st id updates now false).people = st.people
      ∧ (updatePerson st id updates now false).links = st.links
      ∧ (updatePerson st id updates now false).error = some "Failed to update person"
      ∧ personUpdateKey id ∉ (updatePerson st id updates now false).pending)
    ∧ (∀ st id, (st.people.map Person.id).Nodup → (∃ p ∈ st.people, p.id = id) →
      (deletePerson st id false).people.Perm st.people
      ∧ (deletePerson st id false).links.Perm st.links
      ∧ (deletePerson st id false).error = some "Failed to delete person"
      ∧ personDeleteKey id ∉ (deletePerson st id false).pending
      ∧ (∀ l ∈ st.links, (l.sourceId = id ∨ l.targetId = id) →
          linkDeleteKey l.id ∉ (deletePerson st id false).pending))
    ∧ (∀ st draft newId now, newId ∉ st.links.map Link.id →
      (addLink st draft newId now false).people = st.people
      ∧ (addLink st draft newId now false).links = st.links
      ∧ (addLink st draft newId now false).error = some "Failed to save link"
      ∧ linkCreateKey newId ∉ (addLink st draft newId now false).pending)
    ∧ (∀ st id updates now, (st.links.map Link.id).Nodup →
        (∃ l ∈ st.links, l.id = id) →
      (updateLink st id updates now false).people = st.people
      ∧ (updateLink st id updates now false).links = st.links
      ∧ (updateLink st id updates now false).error = some "Failed to update link"
      ∧ linkUpdateKey id ∉ (updateLink st id updates now false).pending)
    ∧ (∀ st id, (st.links.map Link.id).Nodup → (∃ l ∈ st.links, l.id = id) →
      (deleteLink st id false).people = st.people
      ∧ (deleteLink st id false).links.Perm st.links
      ∧ (deleteLink st id false).error = some "Failed to delete link"
      ∧ linkDeleteKey id ∉ (deleteLink st id false).pending) :=
  ⟨fun st draft newId now h => addPerson_rollback st draft newId now h,
   fun st id updates now hnd h => updatePerson_rollback st id updates now hnd h,
   fun st id hnd h => deletePerson_rollback st id hnd h,
   fun st draft newId now h => addLink_rollback st draft newId now h,
   fun st id updates now hnd h => updateLink_rollback st id updates now hnd h,
   fun st id hnd h => deleteLink_rollback st id hnd h⟩

/-- C3 counterexample: after a failed remote delete of Alice (first of two
people), the rollback re-appends her at the end — the people list is a
permutation of, but not equal to, the snapshot taken before the optimistic
removal, so the state is not restored to exactly the snapshot. -/
theorem rollback_not_exact :
    (deletePerson baseState "a" false).people = [bob, alice]
    ∧ baseState.people = [alice, bob]
    ∧ (deletePerson baseState "a" false).people ≠ baseState.people :=
  ⟨by decide, by decide, by decide⟩

/-- Witness for C3 (amended) at a concrete input: the failed delete of Alice
restores the base store's people as a multiset and sets the error. -/
theorem rollback_spec_witness :
    ((baseState.people.map Person.id).Nodup ∧ (∃ p ∈ baseState.people, p.id = "a"))
    ∧ (deletePerson baseState "a" false).people.Perm baseState.people
    ∧ (deletePerson baseState "a" false).error = some "Failed to delete person" :=
  ⟨⟨by decide, ⟨alice, by decide, rfl⟩⟩,
   (rollback_spec.2.2.1 baseState "a" (by decide) ⟨alice, by decide, rfl⟩).1,
   (rollback_spec.2.2.1 baseState "a" (by decide) ⟨alice, by decide, rfl⟩).2.2.1⟩

/-! Permutation invariance of the stream derivation (claim C7). -/

theorem offDiag_map_perm {β : Type} (f : Person × Person → β)
    (hsymm : ∀ p q, f (p, q) = f (q, p)) :
    ∀ {l₁ l₂ : List Person}, l₁.Perm l₂ →
      ((offDiagPairs l₁).map f).Perm ((offDiagPairs l₂).map f) := by
  intro l₁ l₂ h
  induction h with
  | nil => simp [offDiagPairs]
  | cons x h ih =>
    simp only [offDiagPairs, List.map_append, List.map_map]
    exact (h.map _).append ih
  | swap x y l =>
    simp only [offDiagPairs, List.map_append, List.map_map, List.map_cons,
      List.cons_append]
    rw [hsymm y x]
    apply List.Perm.cons
    rw [← List.append_assoc, ← List.append_assoc]
    exact List.Perm.append_right _ List.perm_append_comm
  | trans _ _ ih₁ ih₂ => exact ih₁.trans ih₂

theorem flatMap_perm_congr {α β : Type} {f g : α → List β} :
    ∀ (l : List α), (∀ a ∈ l, (f a).Perm (g a)) → (l.flatMap f).Perm (l.flatMap g) := by
  intro l
  induction l with
  | nil => intro _; simp
  | cons x xs ih =>
    intro h
    rw [List.flatMap_cons, List.flatMap_cons]
    exact (h x (List.mem_cons_self _ _)).append
      (ih fun a ha => h a (List.mem_cons_of_mem _ ha))

theorem perm_flatMap {α β : Type} {l₁ l₂ : List α} (f : α → List β)
    (h : l₁.Perm l₂) : (l₁.flatMap f).Perm (l₂.flatMap f) := by
  induction h with
  | nil => exact List.Perm.refl _
  | cons x _ ih =>
    rw [List.flatMap_cons, List.flatMap_cons]
    exact (List.Perm.refl _).append ih
  | swap x y l =>
    rw [List.flatMap_cons, List.flatMap_cons, List.flatMap_cons, List.flatMap_cons,
      ← List.append_assoc, ← List.append_assoc]
    exact List.Perm.append_right _ List.perm_append_comm
  | trans _ _ ih₁ ih₂ => exact ih₁.trans ih₂

theorem streamKeys_perm {l₁ l₂ : List Person} (h : l₁.Perm l₂) :
    (firstDedup (l₁.filterMap streamKey)).Perm (firstDedup (l₂.filterMap streamKey)) := by
  rw [List.perm_ext_iff_of_nodup (nodup_firstDedup _) (nodup_firstDedup _)]
  intro k
  rw [mem_firstDedup, mem_firstDedup]
  constructor
  · intro hk
    obtain ⟨p, hp, hpk⟩ := List.mem_filterMap.mp hk
    exact List.mem_filterMap.mpr ⟨p, h.subset hp, hpk⟩
  · intro hk
    obtain ⟨p, hp, hpk⟩ := List.mem_filterMap.mp hk
    exact List.mem_filterMap.mpr ⟨p, h.symm.subset hp, hpk⟩

/-- C7 (amended): the derivation is a pure function, so recomputing on the
same list yields identical output; and for stream links, permuting the input
entity list preserves the derived connections up to endpoint orientation:
the multiset of (unordered endpoint pair, description) values is invariant.
(The link ids themselves, and the interest links even up to orientation, are
not permutation-invariant — see the counterexample.) -/
theorem derived_links_perm (l₁ l₂ : List Person) (h : l₁.Perm l₂) :
    (generateStreamLinks l₁ = generateStreamLinks l₁
      ∧ generateInterestLinks l₁ = generateInterestLinks l₁)
    ∧ ((generateStreamLinks l₁).map streamCore).Perm
        ((generateStreamLinks l₂).map streamCore) := by
  refine ⟨⟨rfl, rfl⟩, ?_⟩
  rw [generateStreamLinks, generateStreamLinks, List.map_flatMap, List.map_flatMap]
  have hstep1 : ((firstDedup (l₁.filterMap streamKey)).flatMap
      (fun k => (streamPairLinks k (streamGroup l₁ k)).map streamCore)).Perm
      ((firstDedup (l₁.filterMap streamKey)).flatMap
      (fun k => (streamPairLinks k (streamGroup l₂ k)).map streamCore)) := by
    apply flatMap_perm_congr
    intro k _
    rw [streamPairLinks, streamPairLinks, List.map_map, List.map_map]
    apply offDiag_map_perm
    · intro p q
      show (Sym2.mk (p.id, q.id), capitalizeJs k) = (Sym2.mk (q.id, p.id), capitalizeJs k)
      rw [Sym2.eq_swap]
    · exact h.filter _
  have hstep2 : ((firstDedup (l₁.filterMap streamKey)).flatMap
      (fun k => (streamPairLinks k (streamGroup l₂ k)).map streamCore)).Perm
      ((firstDedup (l₂.filterMap streamKey)).flatMap
      (fun k => (streamPairLinks k (streamGroup l₂ k)).map streamCore)) :=
    perm_flatMap _ (streamKeys_perm h)
  exact hstep1.trans hstep2

/-- C7 counterexample: recomputation after permuting the entity list does
not yield the same set of derived links — with the collision fixture the
orders [A,B,C] and [A,C,B] derive interest links with different descriptions
(and different ids), because the dedup key collision resolves differently. -/
theorem derived_links_perm_counterexample :
    List.Perm [collA, collB, collC] [collA, collC, collB]
    ∧ (generateInterestLinks [collA, collB, collC]).map Link.description = ["c"]
    ∧ (generateInterestLinks [collA, collC, collB]).map Link.description = ["b"] :=
  ⟨by decide, by decide, by decide⟩

/-- Witness for C7 (amended) at a concrete input. -/
theorem derived_links_perm_witness :
    List.Perm [alice, bob] [bob, alice]
    ∧ ((generateStreamLinks [alice, bob]).map streamCore).Perm
        ((generateStreamLinks [bob, alice]).map streamCore) :=
  ⟨by decide, (derived_links_perm [alice, bob] [bob, alice] (by decide)).2⟩

/-! Interest de-duplication (claim C2). -/

theorem dedupLoop_eq : ∀ (ls : List Link) (seen : List String) (acc : List Link),
    dedupLoop ls seen acc = acc ++ dedupRec ls seen := by
  intro ls
  induction ls with
  | nil => intro seen acc; rw [dedupLoop, dedupRec, List.append_nil]
  | cons l ls ih =>
    intro seen acc
    rw [dedupLoop, dedupRec]
    by_cases hc : seen.contains (linkKey l)
    · rw [if_pos hc, if_pos hc, ih]
    · rw [if_neg hc, if_neg hc, ih, List.append_assoc, List.singleton_append]

theorem generateInterestLinks_eq (people : List Person) :
    generateInterestLinks people = dedupRec (rawInterestLinks people) [] := by
  rw [generateInterestLinks, dedupLoop_eq, List.nil_append]

theorem mem_dedupRec_sub : ∀ {ls : List Link} {seen : List String} {l : Link},
    l ∈ dedupRec ls seen → l ∈ ls := by
  intro ls
  induction ls with
  | nil => intro seen l h; cases h
  | cons l' ls ih =>
    intro seen l h
    rw [dedupRec] at h
    by_cases hc : seen.contains (linkKey l')
    · rw [if_pos hc] at h
      exact List.mem_cons_of_mem _ (ih h)
    · rw [if_neg hc] at h
      rcases List.mem_cons.mp h with rfl | h'
      · exact List.mem_cons_self _ _
      · exact List.mem_cons_of_mem _ (ih h')

theorem dedupRec_keys : ∀ {ls : List Link} {seen : List String},
    ((dedupRec ls seen).map linkKey).Nodup
    ∧ ∀ k ∈ (dedupRec ls seen).map linkKey, k ∉ seen := by
  intro ls
  induction ls with
  | nil => intro seen; simp [dedupRec]
  | cons l ls ih =>
    intro seen
    rw [dedupRec]
    by_cases hc : seen.contains (linkKey l)
    · rw [if_pos hc]
      exact ih
    · rw [if_neg hc]
      have ih' := @ih (seen ++ [linkKey l])
      rw [List.map_cons, List.nodup_cons]
      refine ⟨⟨?_, ih'.1⟩, ?_⟩
      · intro hk
        exact ih'.2 _ hk (List.mem_append.mpr (Or.inr (List.mem_singleton.mpr rfl)))
      · intro k hk hkseen
        rcases List.mem_cons.mp hk with rfl | hk'
        · exact (Bool.not_eq_true _).mpr (by simpa using hc)
            (List.elem_eq_true_of_mem hkseen)
        · exact ih'.2 _ hk' (List.mem_append.mpr (Or.inl hkseen))

theorem mem_dedupRec : ∀ {ls : List Link} {seen : List String} {L : Link},
    L ∈ ls → (∀ l' ∈ ls, linkKey l' = linkKey L → l' = L) →
    linkKey L ∉ seen → L ∈ dedupRec ls seen := by
  intro ls
  induction ls with
  | nil => intro seen L h; cases h
  | cons l' ls ih =>
    intro seen L hmem hinj hseen
    rw [dedupRec]
    by_cases hc : seen.contains (linkKey l')
    · rw [if_pos hc]
      rcases List.mem_cons.mp hmem with rfl | hmem'
      · exact absurd (List.mem_of_elem_eq_true hc) hseen
      · exact ih hmem' (fun y hy => hinj y (List.mem_cons_of_mem _ hy)) hseen
    · rw [if_neg hc]
      by_cases hLl : L = l'
      · rw [hLl]
        exact List.mem_cons_self _ _
      · have hmem' : L ∈ ls := by
          rcases List.mem_cons.mp hmem with rfl | hmem'
          · exact absurd rfl hLl
          · exact hmem'
        refine List.mem_cons_of_mem _ (ih hmem'
          (fun y hy => hinj y (List.mem_cons_of_mem _ hy)) ?_)
        intro hk
        rcases List.mem_append.mp hk with h | h
        · exact hseen h
        · have hkeq : linkKey l' = linkKey L := (List.mem_singleton.mp h).symm
          exact hLl (hinj l' (List.mem_cons_self _ _) hkeq).symm

theorem sublist_pair_of_mem {α : Type} {a b : α} (hne : a ≠ b) :
    ∀ {l : List α}, a ∈ l → b ∈ l → [a, b].Sublist l ∨ [b, a].Sublist l := by
  intro l
  induction l with
  | nil => intro ha; cases ha
  | cons z zs ih =>
    intro ha hb
    rcases List.mem_cons.mp ha with rfl | ha'
    · have hb' : b ∈ zs := by
        rcases List.mem_cons.mp hb with h | h
        · exact absurd h.symm hne
        · exact h
      exact Or.inl ((List.singleton_sublist.mpr hb').cons₂ a)
    · rcases List.mem_cons.mp hb with rfl | hb'
      · exact Or.inr ((List.singleton_sublist.mpr ha').cons₂ b)
      · rcases ih ha' hb' with h | h
        · exact Or.inl (h.cons z)
        · exact Or.inr (h.cons z)

theorem pair_unique {people : List Person} (hnd : (people.map Person.id).Nodup)
    {pq pq' : Person × Person} (h1 : pq ∈ offDiagPairs people)
    (h2 : pq' ∈ offDiagPairs people)
    (hids : (pq'.1.id = pq.1.id ∧ pq'.2.id = pq.2.id)
      ∨ (pq'.1.id = pq.2.id ∧ pq'.2.id = pq.1.id)) : pq' = pq := by
  have hm1 := offDiag_mem h1
  have hm2 := offDiag_mem h2
  rcases hids with ⟨ha, hb⟩ | ⟨ha, hb⟩
  · have e1 : pq'.1 = pq.1 := List.inj_on_of_nodup_map hnd hm2.1 hm1.1 ha
    have e2 : pq'.2 = pq.2 := List.inj_on_of_nodup_map hnd hm2.2 hm1.2 hb
    exact Prod.ext e1 e2
  · have e1 : pq'.1 = pq.2 := List.inj_on_of_nodup_map hnd hm2.1 hm1.2 ha
    have e2 : pq'.2 = pq.1 := List.inj_on_of_nodup_map hnd hm2.2 hm1.1 hb
    have hs1 := mem_offDiagPairs.mp h1
    have hs2 := mem_offDiagPairs.mp h2
    rw [e1, e2] at hs2
    have heq : pq.2 = pq.1 :=
      sublist_pair_antisymm (List.Nodup.of_map Person.id hnd) hs2 hs1
    exact absurd (congrArg Person.id heq.symm) (offDiag_ids_ne hnd h1)

theorem raw_match {people : List Person} (hnd : (people.map Person.id).Nodup)
    {a b : Person} (hsub : [a, b].Sublist people) {x : String} {l : Link}
    (hl : l ∈ rawInterestLinks people)
    (hf : (linkBetweenB l a.id b.id && (l.description == x)) = true) :
    l = mkInterestLink a b x ∧ x ∈ sharedInterests a b := by
  obtain ⟨pq, hpq, y, hy, rfl⟩ := mem_rawInterestLinks hl
  have hab : (a, b) ∈ offDiagPairs people := mem_offDiagPairs.mpr hsub
  simp only [linkBetweenB, mkInterestLink, Bool.and_eq_true, Bool.or_eq_true,
    beq_iff_eq] at hf
  obtain ⟨hor, hdesc⟩ := hf
  have hpq' : pq = (a, b) := pair_unique hnd hab hpq hor
  subst hdesc
  rw [hpq'] at hy ⊢
  exact ⟨rfl, hy⟩

theorem interest_count_core {people : List Person}
    (hnd : (people.map Person.id).Nodup) (hkey : pairKeyInjective people)
    {a b : Person} (hsub : [a, b].Sublist people) (x : String) :
    (generateInterestLinks people).countP
        (fun l => linkBetweenB l a.id b.id && (l.description == x))
      = if x ∈ interestsOf a ∧ x ∈ interestsOf b then 1 else 0 := by
  rw [generateInterestLinks_eq]
  have hsubmem : ∀ l ∈ dedupRec (rawInterestLinks people) [],
      l ∈ rawInterestLinks people := fun _ h => mem_dedupRec_sub h
  have hnodup : (dedupRec (rawInterestLinks people) []).Nodup :=
    List.Nodup.of_map linkKey dedupRec_keys.1
  have hcong : (dedupRec (rawInterestLinks people) []).countP
        (fun l => linkBetweenB l a.id b.id && (l.description == x))
      = (dedupRec (rawInterestLinks people) []).countP
        (fun l => l == mkInterestLink a b x) := by
    apply List.countP_congr
    intro l hl
    constructor
    · intro hf
      exact beq_iff_eq.mpr (raw_match hnd hsub (hsubmem l hl) hf).1
    · intro hbeq
      have hleq : l = mkInterestLink a b x := beq_iff_eq.mp hbeq
      subst hleq
      simp [linkBetweenB, mkInterestLink]
  rw [hcong]
  show (dedupRec (rawInterestLinks people) []).count (mkInterestLink a b x) = _
  by_cases hshared : x ∈ interestsOf a ∧ x ∈ interestsOf b
  · rw [if_pos hshared]
    apply List.count_eq_one_of_mem hnodup
    apply mem_dedupRec
    · rw [rawInterestLinks, List.mem_flatMap]
      refine ⟨(a, b), mem_offDiagPairs.mpr hsub, ?_⟩
      rw [if_neg (by
        push_neg
        exact ⟨List.ne_nil_of_mem hshared.1, List.ne_nil_of_mem hshared.2⟩)]
      exact List.mem_map_of_mem _ (mem_sharedInterests.mpr hshared)
    · intro l' hl' hkeq
      obtain ⟨pq, hpq, y, hy, rfl⟩ := mem_rawInterestLinks hl'
      have hkeq' : pairKey pq.1.id pq.2.id y = pairKey a.id b.id x := hkeq
      have hres := hkey pq hpq (a, b) (mem_offDiagPairs.mpr hsub) y hy x
        (mem_sharedInterests.mpr hshared) hkeq'
      rw [hres.1, hres.2]
    · exact List.not_mem_nil _
  · rw [if_neg hshared]
    apply List.count_eq_zero_of_not_mem
    intro hmem
    obtain ⟨pq, hpq, y, hy, heq⟩ := mem_rawInterestLinks (hsubmem _ hmem)
    have hsrc : a.id = pq.1.id := congrArg Link.sourceId heq
    have htgt : b.id = pq.2.id := congrArg Link.targetId heq
    have hdesc : x = y := congrArg Link.description heq
    have hmm := offDiag_mem hpq
    have ha : a ∈ people := hsub.subset (by simp)
    have hb : b ∈ people := hsub.subset (by simp)
    have e1 : pq.1 = a := List.inj_on_of_nodup_map hnd hmm.1 ha hsrc.symm
    have e2 : pq.2 = b := List.inj_on_of_nodup_map hnd hmm.2 hb htgt.symm
    rw [e1, e2, ← hdesc] at hy
    exact hshared (mem_sharedInterests.mp hy)

theorem linkBetweenB_comm (l : Link) (x y : String) :
    linkBetweenB l x y = linkBetweenB l y x := by
  simp [linkBetweenB, Bool.or_comm]

/-- C2 (amended): provided no two distinct (pair, shared-interest)
combinations collide on the de-duplication key
`[id1, id2, interest].sort().join('-')` (and ids are pairwise distinct),
`generateInterestLinks` yields, for every unordered pair of distinct
entities and every interest string, exactly one interest link with that
description when the interest occurs in both entities' lists — even when it
occurs multiple times in a list — and none otherwise.  Without the
no-collision hypothesis a colliding combination yields no link (see the
counterexample). -/
theorem generateInterestLinks_dedup (people : List Person)
    (hnd : (people.map Person.id).Nodup) (hkey : pairKeyInjective people) :
    ∀ a ∈ people, ∀ b ∈ people, a.id ≠ b.id → ∀ x : String,
      (generateInterestLinks people).countP
        (fun l => linkBetweenB l a.id b.id && (l.description == x))
        = if x ∈ interestsOf a ∧ x ∈ interestsOf b then 1 else 0 := by
  intro a ha b hb hab x
  have hne : a ≠ b := fun h => hab (by rw [h])
  rcases sublist_pair_of_mem hne ha hb with hsub | hsub
  · exact interest_count_core hnd hkey hsub x
  · have hsymm := interest_count_core hnd hkey hsub x
    have hfun : (fun l => linkBetweenB l a.id b.id && (l.description == x))
        = (fun l => linkBetweenB l b.id a.id && (l.description == x)) := by
      funext l
      rw [linkBetweenB_comm]
    rw [hfun, hsymm]
    by_cases hc : x ∈ interestsOf a ∧ x ∈ interestsOf b
    · rw [if_pos hc, if_pos ⟨hc.2, hc.1⟩]
    · rw [if_neg hc, if_neg (fun h => hc ⟨h.2, h.1⟩)]

/-- C2 counterexample: entities a and c share interest "b", yet no interest
link with description "b" joins them — the (a,c,"b") combination's dedup key
"a-b-c" collides with the key of the earlier (a,b,"c") combination, so the
link is silently dropped. -/
theorem interest_dedup_collision :
    ("b" ∈ sharedInterests collA collC)
    ∧ (generateInterestLinks [collA, collB, collC]).countP
        (fun l => linkBetweenB l "a" "c" && (l.description == "b")) = 0 :=
  ⟨by decide, by decide⟩

/-- Witness for C2 (amended) at a concrete input: Alice and Bob share "nlp"
and get exactly one "nlp" interest link. -/
theorem generateInterestLinks_dedup_witness :
    (([nlpAlice, nlpBob].map Person.id).Nodup
      ∧ pairKeyInjective [nlpAlice, nlpBob]
      ∧ nlpAlice.id ≠ nlpBob.id)
    ∧ (generateInterestLinks [nlpAlice, nlpBob]).countP
        (fun l => linkBetweenB l nlpAlice.id nlpBob.id && (l.description == "nlp")) = 1 := by
  refine ⟨⟨by decide, by decide, by decide⟩, ?_⟩
  have h := generateInterestLinks_dedup [nlpAlice, nlpBob] (by decide) (by decide)
    nlpAlice (by decide) nlpBob (by decide) (by decide) "nlp"
  rw [h]
  decide
